import Mathlib

/-!
Verification of the static-site URL rewriter in `app.py`.

The program pipes each document's text through three stages:
1. a literal domain substitution (`str.replace`),
2. a path-prefixer over HTML attributes and CSS `url()` references
   (two `re.sub` passes with callbacks), and
3. an `href` extension fixer that consults the filesystem
   (one case-sensitive `re.sub` pass with a callback).

Everything is embedded over `List Char`.  The regex patterns of the source
are specific enough to be modelled as deterministic left-to-right scanners
that reproduce the leftmost, non-overlapping semantics of `re.sub`.
Filesystem access is modelled as a pair of boolean probes.
-/

abbrev Str := List Char

/-- The single-quote character, written via its code point. -/
def squote : Char := Char.ofNat 39

/-- Configuration constant `OLD_DOMAIN` from app.py. -/
def OLD_DOMAIN : Str := "mychart-app.com".toList

/-- Configuration constant `NEW_DOMAIN` from app.py. -/
def NEW_DOMAIN : Str := "mychart-ap.github.io/download/".toList

/-- Configuration constant `PATH_PREFIX` from app.py. -/
def pathPref : Str := "/download".toList

/-- Configuration constant `FIX_MISSING_HTML_EXTENSION` from app.py. -/
def FIX_MISSING_HTML_EXTENSION : Bool := true

/-- `p.isPrefixOf s` as Python `s.startswith(p)`. -/
def startsWith (p s : Str) : Bool := p.isPrefixOf s

/-- Python `s.rstrip(c)`: remove all trailing occurrences of `c`. -/
def rstripAll (c : Char) (s : Str) : Str := (s.reverse.dropWhile (fun x => x == c)).reverse

/-- Python `s.lstrip(c)`: remove all leading occurrences of `c`. -/
def lstripAll (c : Char) (s : Str) : Str := s.dropWhile (fun x => x == c)

/-- Characters matched by Python's regex `\s` (ASCII range). -/
def isSpaceCh (c : Char) : Bool :=
  c == ' ' || c == '\t' || c == '\n' || c == '\r' || c == '\x0b' || c == '\x0c'

/-- Characters accepted by the quote classes `["\']` of the patterns. -/
def isQuoteCh (c : Char) : Bool := c == '"' || c == squote

/-- Python `str.replace`, fuelled structurally: scan left to right, replace
each non-overlapping occurrence of `old`, continue after the replacement. -/
def pyReplaceF : Nat → Str → Str → Str → Str
  | 0, _, _, s => s
  | _ + 1, _, _, [] => []
  | fuel + 1, old, new, c :: rest =>
    if !old.isEmpty && old.isPrefixOf (c :: rest) then
      new ++ pyReplaceF fuel old new ((c :: rest).drop old.length)
    else
      c :: pyReplaceF fuel old new rest

/-- Python `s.replace(old, new)` for nonempty `old` (stage 1 of the pipeline). -/
def pyReplace (old new s : Str) : Str := pyReplaceF s.length old new s

-- Sanity examples for the scanner semantics (non-overlapping, leftmost).
example : pyReplace "aa".toList "b".toList "aaa".toList = "ba".toList := by decide
example : pyReplace OLD_DOMAIN NEW_DOMAIN "x mychart-app.com y".toList
    = "x mychart-ap.github.io/download/ y".toList := by decide

/-- Case-insensitive literal prefix test (Python regex literal under
`re.IGNORECASE`). -/
def ciPref : Str → Str → Bool
  | [], _ => true
  | _ :: _, [] => false
  | a :: as, b :: bs => (a.toLower == b.toLower) && ciPref as bs

/-- Match a literal (case-insensitively) at the head of `s`; on success
return the original slice of `s` and the remainder.  Group captures in
Python keep the original casing of the text, hence `s.take`. -/
def matchLitCI (lit s : Str) : Option (Str × Str) :=
  if ciPref lit s then some (s.take lit.length, s.drop lit.length) else none

/-- The attribute alternatives of the HTML pattern
`(href=|src=|action=|content=|data-src=|srcset=)`, in the order the regex
alternation tries them. -/
def attrLits : List Str :=
  ["href=".toList, "src=".toList, "action=".toList, "content=".toList,
   "data-src=".toList, "srcset=".toList]

/-- First literal of `lits` that matches at the head of `s` (regex
alternation: leftmost alternative wins). -/
def matchFirst (lits : List Str) (s : Str) : Option (Str × Str) :=
  match lits with
  | [] => none
  | lit :: rest =>
    match matchLitCI lit s with
    | some r => some r
    | none => matchFirst rest s

/-- Match one of the recognised attribute names followed by `=`. -/
def matchAttr (s : Str) : Option (Str × Str) := matchFirst attrLits s

/-- Lazy body scan for `(.*?)` up to the closing character `q`:
returns the chars before the first `q` and the remainder after it.
`.` does not match a newline, so a newline before `q` fails the match. -/
def scanBody (q : Char) : Str → Option (Str × Str)
  | [] => none
  | c :: rest =>
    if c == q then some ([], rest)
    else if c == '\n' then none
    else
      match scanBody q rest with
      | some (b, r) => some (c :: b, r)
      | none => none

/-- One occurrence of the HTML pattern
`(href=|src=|action=|content=|data-src=|srcset=)\s*(["\'])(/.*?)\2`:
group 1 is `attr`, the matched whitespace is `ws` (captured by no group),
group 2 is `q`, group 3 is `path`; `rest` is the text after the match. -/
structure HtmlMatch where
  attr : Str
  ws : Str
  q : Char
  path : Str
  rest : Str
  deriving DecidableEq

/-- Try the HTML attribute pattern at the head of `s`. -/
def tryMatchHtml (s : Str) : Option HtmlMatch :=
  match matchAttr s with
  | none => none
  | some (attr, r1) =>
    match r1.dropWhile isSpaceCh with
    | q :: rest2 =>
      if isQuoteCh q then
        match rest2 with
        | c2 :: rest3 =>
          if c2 == '/' then
            match scanBody q rest3 with
            | some (b, r4) => some ⟨attr, r1.takeWhile isSpaceCh, q, c2 :: b, r4⟩
            | none => none
          else none
        | [] => none
      else none
    | [] => none

/-- `PATH_PREFIX.rstrip('/')` as computed inside both callbacks. -/
def cleanPref : Str := rstripAll '/' pathPref

/-- `replace_callback` of app.py: skip protocol-relative and
already-prefixed paths, otherwise prepend the cleaned prefix.  The matched
whitespace is not part of any reassembled group, so it is dropped. -/
def replace_callback (full attr : Str) (q : Char) (path : Str) : Str :=
  if startsWith "//".toList path then full
  else if startsWith pathPref path || startsWith (cleanPref ++ ['/']) path then full
  else attr ++ q :: (cleanPref ++ path) ++ [q]

/-- The text a matched HTML occurrence is replaced with. -/
def htmlEmit (m : HtmlMatch) : Str :=
  replace_callback (m.attr ++ m.ws ++ m.q :: m.path ++ [m.q]) m.attr m.q m.path

/-- Fuelled scanner for `html_pattern.sub(replace_callback, content)`. -/
def htmlSubF : Nat → Str → Str
  | 0, s => s
  | _ + 1, [] => []
  | fuel + 1, c :: rest =>
    match tryMatchHtml (c :: rest) with
    | some m => htmlEmit m ++ htmlSubF fuel m.rest
    | none => c :: htmlSubF fuel rest

/-- Stage 2a of the pipeline: prefix root-relative HTML attribute paths. -/
def htmlSub (s : Str) : Str := htmlSubF s.length s

example : htmlSub "<a href=\"/about\">x</a>".toList
    = "<a href=\"/download/about\">x</a>".toList := by decide
example : htmlSub "href= \"/a\"".toList = "href=\"/download/a\"".toList := by decide
example : htmlSub "HREF=\"/a\"".toList = "HREF=\"/download/a\"".toList := by decide
example : htmlSub "src=\"//cdn.example.com/a.png\"".toList
    = "src=\"//cdn.example.com/a.png\"".toList := by decide
example : htmlSub "href=\"/download/x\"".toList = "href=\"/download/x\"".toList := by decide

/-- Check `\s*\)` greedily: all whitespace, then a literal `)`.  Returns the
whitespace of group 5 and the remainder after `)`. -/
def chkCloseParen (s : Str) : Option (Str × Str) :=
  match s.dropWhile isSpaceCh with
  | c :: r => if c == ')' then some (s.takeWhile isSpaceCh, r) else none
  | [] => none

/-- Tail test for the lazy path of the CSS pattern: greedy optional closing
quote `([\'"]?)` first, falling back to the empty quote, then `(\s*\))`.
Returns (group 4, group-5 whitespace, remainder). -/
def cssTail (s : Str) : Option (Str × Str × Str) :=
  match s with
  | c :: r =>
    if isQuoteCh c then
      match chkCloseParen r with
      | some (w, rest) => some ([c], w, rest)
      | none => (chkCloseParen s).map (fun p => ([], p.1, p.2))
    else (chkCloseParen s).map (fun p => ([], p.1, p.2))
  | [] => none

/-- Lazy expansion of `(.*?)` in the CSS pattern: at each position first try
the tail of the pattern; only on failure consume one more (non-newline)
character into the path.  Returns (path tail, group 4, group-5 whitespace,
remainder). -/
def cssLazy : Str → Option (Str × Str × Str × Str)
  | [] => none
  | c :: r =>
    match cssTail (c :: r) with
    | some (q4, w, rest) => some ([], q4, w, rest)
    | none =>
      if c == '\n' then none
      else (cssLazy r).map (fun p => (c :: p.1, p.2.1, p.2.2.1, p.2.2.2))

/-- One occurrence of the CSS pattern
`(url\(\s*)([\'"]?)(/.*?)([\'"]?)(\s*\))`: `head` is group 1 (the `url(`
slice plus whitespace), `q2`/`q4` the optional quotes, `ws2` the whitespace
of group 5; `rest` is the text after the match.  The open and close quotes
are not required to agree, as in the source pattern. -/
structure CssMatch where
  head : Str
  q2 : Str
  path : Str
  q4 : Str
  ws2 : Str
  rest : Str
  deriving DecidableEq

/-- Try the CSS `url()` pattern at the head of `s`. -/
def tryMatchCss (s : Str) : Option CssMatch :=
  match matchLitCI "url(".toList s with
  | none => none
  | some (u, r1) =>
    let ws := r1.takeWhile isSpaceCh
    match r1.dropWhile isSpaceCh with
    | '/' :: r3 =>
      match cssLazy r3 with
      | some (b, q4, w2, rest) => some ⟨u ++ ws, [], '/' :: b, q4, w2, rest⟩
      | none => none
    | c :: '/' :: r3 =>
      if isQuoteCh c then
        match cssLazy r3 with
        | some (b, q4, w2, rest) => some ⟨u ++ ws, [c], '/' :: b, q4, w2, rest⟩
        | none => none
      else none
    | _ => none

/-- `css_callback` of app.py. -/
def css_callback (full head q2 path q4 ws2 : Str) : Str :=
  if startsWith "//".toList path then full
  else if startsWith pathPref path then full
  else head ++ q2 ++ (cleanPref ++ path) ++ q4 ++ ws2 ++ [')']

/-- The text a matched CSS occurrence is replaced with. -/
def cssEmit (m : CssMatch) : Str :=
  css_callback (m.head ++ m.q2 ++ m.path ++ m.q4 ++ m.ws2 ++ [')'])
    m.head m.q2 m.path m.q4 m.ws2

/-- Fuelled scanner for `css_pattern.sub(css_callback, content)`. -/
def cssSubF : Nat → Str → Str
  | 0, s => s
  | _ + 1, [] => []
  | fuel + 1, c :: rest =>
    match tryMatchCss (c :: rest) with
    | some m => cssEmit m ++ cssSubF fuel m.rest
    | none => c :: cssSubF fuel rest

/-- Stage 2b of the pipeline: prefix root-relative CSS `url()` paths. -/
def cssSub (s : Str) : Str := cssSubF s.length s

example : cssSub "b: url(/css/s.css)".toList = "b: url(/download/css/s.css)".toList := by
  decide
example : cssSub "b: url( \"/a\" )".toList = "b: url( \"/download/a\" )".toList := by
  decide
example : cssSub "b: url(//h/a)".toList = "b: url(//h/a)".toList := by decide
example : cssSub "b: url(/download/a)".toList = "b: url(/download/a)".toList := by decide

/-- Read-only filesystem probes used by the Link Extension Fixer
(`os.path.isdir` / `os.path.isfile`). -/
structure FS where
  isdir : Str → Bool
  isfile : Str → Bool

/-- `os.path.join(root, p)` for a relative `p` on POSIX (`os.sep = '/'`);
the fixer only joins cleaned paths with no leading slash. -/
def osJoin (a b : Str) : Str :=
  if a.isEmpty then b
  else if a.getLast? == some '/' then a ++ b
  else a ++ '/' :: b

/-- Python `s.split(c, 1)[1]`: everything after the first `c`. -/
def afterFirst (c : Char) (s : Str) : Str := (s.dropWhile (fun x => x != c)).drop 1

/-- The literal `href=` of the fixer pattern (case-sensitive: no
`re.IGNORECASE` on this pattern). -/
def hrefLit : Str := "href=".toList

/-- One occurrence of the fixer pattern `href=(["\'])(.*?)\1`. -/
structure HrefMatch where
  q : Char
  url : Str
  rest : Str
  deriving DecidableEq

/-- Try the fixer pattern at the head of `s`. -/
def tryMatchHref (s : Str) : Option HrefMatch :=
  if startsWith hrefLit s then
    match s.drop 5 with
    | q :: r =>
      if isQuoteCh q then (scanBody q r).map (fun p => ⟨q, p.1, p.2⟩) else none
    | [] => none
  else none

/-- The full matched text `href=<q><url><q>` of a fixer occurrence. -/
def fullHref (q : Char) (url : Str) : Str := hrefLit ++ q :: url ++ [q]

/-- `clean_path` as computed in `fix_html_link`: strip the prefix, cut at
the first `?` and then the first `#`, strip leading and trailing slashes. -/
def cleanPathOf (url : Str) : Str :=
  let rel := url.drop pathPref.length
  let cp := (rel.takeWhile (fun c => c != '?')).takeWhile (fun c => c != '#')
  let cp := if startsWith ['/'] cp then lstripAll '/' cp else cp
  if cp.getLast? == some '/' then rstripAll '/' cp else cp

/-- The literal extension `".html"` appended by the fixer. -/
def htmlExt : Str := ".html".toList

/-- The on-disk path the fixer resolves a link to
(`os.path.join(root_dir, clean_path.replace('/', os.sep))`). -/
def potentialOf (root url : Str) : Str := osJoin root (cleanPathOf url)

/-- `url_base` of `fix_html_link`: the url cut at the first `?` and then
the first `#`, with one trailing slash removed (`[:-1]`). -/
def urlBaseOf (url : Str) : Str :=
  let b := (url.takeWhile (fun c => c != '?')).takeWhile (fun c => c != '#')
  if b.getLast? == some '/' then b.dropLast else b

/-- `suffix` of `fix_html_link`: the `?` tail if a `?` occurs anywhere in
the url, else the `#` tail if a `#` occurs, else empty. -/
def suffixOf (url : Str) : Str :=
  if url.contains '?' then '?' :: afterFirst '?' url
  else if url.contains '#' then '#' :: afterFirst '#' url
  else []

/-- `fix_html_link` of app.py, applied to one matched occurrence. -/
def fix_html_link (fs : FS) (root : Str) (q : Char) (url : Str) : Str :=
  if !(startsWith pathPref url) then fullHref q url
  else
    let clean := cleanPathOf url
    if clean.isEmpty then fullHref q url
    else if fs.isdir (potentialOf root url) then fullHref q url
    else if fs.isfile (potentialOf root url ++ htmlExt) then
      hrefLit ++ q :: (urlBaseOf url ++ htmlExt ++ suffixOf url) ++ [q]
    else fullHref q url

/-- Fuelled scanner for `re.sub(r'href=(["\'])(.*?)\1', fix_html_link, content)`. -/
def fixSubF (fs : FS) (root : Str) : Nat → Str → Str
  | 0, s => s
  | _ + 1, [] => []
  | fuel + 1, c :: rest =>
    match tryMatchHref (c :: rest) with
    | some m => fix_html_link fs root m.q m.url ++ fixSubF fs root fuel m.rest
    | none => c :: fixSubF fs root fuel rest

/-- Stage 3 of the pipeline: fix missing `.html` extensions in `href` links. -/
def fixSub (fs : FS) (root s : Str) : Str := fixSubF fs root s.length s

/-- `process_content(content, root_dir)` of app.py: domain substitution,
then HTML and CSS path prefixing, then (as the extension-fixing flag is
set) the link extension fixer. -/
def process_content (fs : FS) (root content : Str) : Str :=
  let c1 := pyReplace OLD_DOMAIN NEW_DOMAIN content
  let c2 := htmlSub c1
  let c3 := cssSub c2
  if FIX_MISSING_HTML_EXTENSION then fixSub fs root c3 else c3

/-- A filesystem with one regular file `/r/about.html` and no directories. -/
def fsAbout : FS :=
  ⟨fun _ => false, fun p => p == "/r/about.html".toList⟩

example : fixSub fsAbout "/r".toList "href=\"/download/about\"".toList
    = "href=\"/download/about.html\"".toList := by decide
example : fixSub fsAbout "/r".toList "HREF=\"/download/about\"".toList
    = "HREF=\"/download/about\"".toList := by decide

/-- C2: end-to-end scenario on the spec's example document: the `href` is
prefixed and extension-fixed, the absolute `src` URL gets only the literal
domain substitution (including the resulting double slash). -/
theorem c2_end_to_end :
    process_content fsAbout "/r".toList
      "<a href=\"/about\">About</a><img src=\"http://mychart-app.com/x.png\">".toList
    = "<a href=\"/download/about.html\">About</a><img src=\"http://mychart-ap.github.io/download//x.png\">".toList := by
  decide

/-- A filesystem with regular files `/r/news.html` and `/r/news.html.html`
and no directories; on it the extension fixer double-applies. -/
def fsNews : FS :=
  ⟨fun _ => false,
   fun p => p == "/r/news.html".toList || p == "/r/news.html.html".toList⟩

/-- C1: `process_content` is not idempotent for every filesystem state: with
both `news.html` and `news.html.html` on disk, the first pass rewrites
`/download/news` to `/download/news.html` and the second pass rewrites that
to `/download/news.html.html`, so extension fixing double-applies. -/
theorem c1_not_idempotent :
    process_content fsNews "/r".toList
        (process_content fsNews "/r".toList "href=\"/download/news\"".toList)
      ≠ process_content fsNews "/r".toList "href=\"/download/news\"".toList
    ∧ process_content fsNews "/r".toList "href=\"/download/news\"".toList
      = "href=\"/download/news.html\"".toList
    ∧ process_content fsNews "/r".toList "href=\"/download/news.html\"".toList
      = "href=\"/download/news.html.html\"".toList := by
  refine ⟨?_, by decide, by decide⟩
  decide

/-- A path that starts with the prefix plus a trailing slash also starts
with the bare prefix. -/
theorem startsWith_of_slashed (p : Str)
    (h : startsWith (cleanPref ++ ['/']) p = true) : startsWith pathPref p = true := by
  unfold startsWith at h ⊢
  rw [List.isPrefixOf_iff_prefix] at h ⊢
  exact List.IsPrefix.trans (by decide) h

/-- C5: on a match whose path starts with `/` but not `//` and is not yet
prefixed, both callbacks emit the stripped prefix `/download` concatenated
directly in front of the path, with the original quote characters around
it. -/
theorem c5_prefixing (fullH fullC attr head q2 q4 ws2 : Str) (q : Char) (path : Str)
    (h0 : startsWith ['/'] path = true)
    (h1 : startsWith "//".toList path = false)
    (h2 : startsWith pathPref path = false) :
    replace_callback fullH attr q path
      = attr ++ q :: ("/download".toList ++ path) ++ [q]
    ∧ css_callback fullC head q2 path q4 ws2
      = head ++ q2 ++ ("/download".toList ++ path) ++ q4 ++ ws2 ++ [')'] := by
  have h3 : startsWith (cleanPref ++ ['/']) path = false := by
    cases hb : startsWith (cleanPref ++ ['/']) path
    · rfl
    · rw [startsWith_of_slashed path hb] at h2; exact h2
  constructor
  · unfold replace_callback
    rw [h1, h2, h3]
    rfl
  · unfold css_callback
    rw [h1, h2]
    rfl

/-- C5 witness: `href="/images/logo.png"` with prefix `/download` becomes
`href="/download/images/logo.png"` (and likewise for a CSS occurrence). -/
theorem c5_prefixing_witness :
    replace_callback "href=\"/images/logo.png\"".toList "href=".toList '"'
        "/images/logo.png".toList
      = "href=\"/download/images/logo.png\"".toList
    ∧ css_callback "url(/images/logo.png)".toList "url(".toList []
        "/images/logo.png".toList [] []
      = "url(/download/images/logo.png)".toList := by
  have h := c5_prefixing "href=\"/images/logo.png\"".toList
    "url(/images/logo.png)".toList "href=".toList
    "url(".toList [] [] [] '"' "/images/logo.png".toList
    (by decide) (by decide) (by decide)
  exact ⟨h.1.trans (by decide), h.2.trans (by decide)⟩

/-- C6: a protocol-relative path (starting with `//`) makes both callbacks
return the full match unchanged. -/
theorem c6_protocol_relative (fullH fullC attr head q2 q4 ws2 : Str) (q : Char) (path : Str)
    (h : startsWith "//".toList path = true) :
    replace_callback fullH attr q path = fullH
    ∧ css_callback fullC head q2 path q4 ws2 = fullC := by
  unfold replace_callback css_callback
  rw [h]
  exact ⟨rfl, rfl⟩

/-- C6 witness: `//cdn.example.com/a.png` is left byte-identical. -/
theorem c6_protocol_relative_witness :
    replace_callback "src=\"//cdn.example.com/a.png\"".toList "src=".toList '"'
        "//cdn.example.com/a.png".toList
      = "src=\"//cdn.example.com/a.png\"".toList
    ∧ css_callback "url(//cdn.example.com/a.png)".toList "url(".toList []
        "//cdn.example.com/a.png".toList [] []
      = "url(//cdn.example.com/a.png)".toList :=
  c6_protocol_relative "src=\"//cdn.example.com/a.png\"".toList
    "url(//cdn.example.com/a.png)".toList "src=".toList
    "url(".toList [] [] [] '"' "//cdn.example.com/a.png".toList (by decide)

/-- C7: a path that already starts with the configured prefix is left
unchanged by both callbacks (paths starting with `/download/` start with
`/download`, so the with-trailing-slash case is subsumed). -/
theorem c7_already_prefixed (fullH fullC attr head q2 q4 ws2 : Str) (q : Char) (path : Str)
    (h : startsWith pathPref path = true) :
    replace_callback fullH attr q path = fullH
    ∧ css_callback fullC head q2 path q4 ws2 = fullC := by
  unfold replace_callback css_callback
  cases hb : startsWith "//".toList path <;> simp [hb, h]

/-- C7 witness: `href="/download/x"` is unchanged. -/
theorem c7_already_prefixed_witness :
    replace_callback "href=\"/download/x\"".toList "href=".toList '"'
        "/download/x".toList
      = "href=\"/download/x\"".toList
    ∧ css_callback "url(/download/x)".toList "url(".toList []
        "/download/x".toList [] []
      = "url(/download/x)".toList :=
  c7_already_prefixed "href=\"/download/x\"".toList
    "url(/download/x)".toList "href=".toList
    "url(".toList [] [] [] '"' "/download/x".toList (by decide)

/-- C4: the extension fixer leaves an occurrence unchanged unless the
resolved target plus `.html` exists as a regular file, and always leaves it
unchanged when the resolved target is an existing directory. -/
theorem c4_fixer_guards (fs : FS) (root : Str) (q : Char) (url : Str) :
    (fs.isfile (potentialOf root url ++ htmlExt) = false →
      fix_html_link fs root q url = fullHref q url)
    ∧ (fs.isdir (potentialOf root url) = true →
      fix_html_link fs root q url = fullHref q url) := by
  constructor <;> intro h <;> unfold fix_html_link <;> simp [h]

/-- C4 witness: without `blog/news.html` on disk the link is unchanged, and
with `blog/news` an existing directory it is unchanged even though
`blog/news.html` exists. -/
theorem c4_fixer_guards_witness :
    fix_html_link ⟨fun _ => false, fun _ => false⟩ "/r".toList '"'
        "/download/blog/missing".toList
      = fullHref '"' "/download/blog/missing".toList
    ∧ fix_html_link ⟨fun p => p == "/r/blog/news".toList, fun _ => true⟩
        "/r".toList '"' "/download/blog/news".toList
      = fullHref '"' "/download/blog/news".toList :=
  ⟨(c4_fixer_guards ⟨fun _ => false, fun _ => false⟩ "/r".toList '"'
      "/download/blog/missing".toList).1 (by decide),
   (c4_fixer_guards ⟨fun p => p == "/r/blog/news".toList, fun _ => true⟩
      "/r".toList '"' "/download/blog/news".toList).2 (by decide)⟩

/-- A filesystem with one regular file `/r/a.html` and no directories. -/
def fsFrag : FS := ⟨fun _ => false, fun p => p == "/r/a.html".toList⟩

/-- C3 counterexample: for `href="/download/a#f?x"` (a `#` before a `?`),
the fixer reattaches the `?` tail, not the tail of the first marker found
left-to-right: the rewrite yields `/download/a.html?x`, not
`/download/a.html#f?x`, although every guard of the claim holds. -/
theorem c3_counterexample :
    fix_html_link fsFrag "/r".toList '"' "/download/a#f?x".toList
      = "href=\"/download/a.html?x\"".toList
    ∧ "href=\"/download/a.html?x\"".toList ≠ "href=\"/download/a.html#f?x\"".toList
    ∧ startsWith pathPref "/download/a#f?x".toList = true
    ∧ cleanPathOf "/download/a#f?x".toList ≠ []
    ∧ fsFrag.isdir (potentialOf "/r".toList "/download/a#f?x".toList) = false
    ∧ fsFrag.isfile (potentialOf "/r".toList "/download/a#f?x".toList ++ htmlExt)
      = true := by
  refine ⟨by decide, by decide, by decide, by decide, by decide, by decide⟩

/-- Modelled from the spec: the URL cut at the first query or fragment
marker, whichever comes first. -/
def specStripQF : Str → Str
  | [] => []
  | x :: r => if x == '?' || x == '#' then [] else x :: specStripQF r

/-- Modelled from the spec: remove one trailing slash. -/
def specStripTrailSlash (s : Str) : Str :=
  if s.getLast? == some '/' then s.dropLast else s

/-- Modelled from the spec: everything after the first occurrence of `c`. -/
def specTailAfter (c : Char) : Str → Str
  | [] => []
  | x :: r => if x == c then r else specTailAfter c r

/-- Modelled from the spec (amended): reattach the `?` plus query tail if a
`?` appears anywhere in the URL, otherwise the `#` plus fragment tail if a
`#` appears, otherwise nothing. -/
def specSuffix (url : Str) : Str :=
  if url.contains '?' then '?' :: specTailAfter '?' url
  else if url.contains '#' then '#' :: specTailAfter '#' url
  else []

/-- Cutting at `?` and then at `#` equals cutting at the first of the two. -/
theorem takeWhile_qf (l : Str) :
    (l.takeWhile (fun c => c != '?')).takeWhile (fun c => c != '#')
      = specStripQF l := by
  induction l with
  | nil => rfl
  | cons x r ih =>
    by_cases hq : x = '?'
    · subst hq; simp [specStripQF, List.takeWhile]
    · by_cases hh : x = '#'
      · subst hh; simp [specStripQF, List.takeWhile]
      · have hb1 : (x != '?') = true := by simp [hq]
        have hb2 : (x != '#') = true := by simp [hh]
        simp [specStripQF, List.takeWhile, hb1, hb2, hq, hh, ih]

/-- The Python one-split tail equals the spec-side first-occurrence tail. -/
theorem tailAfter_eq (c : Char) (l : Str) : afterFirst c l = specTailAfter c l := by
  induction l with
  | nil => rfl
  | cons x r ih =>
    by_cases hx : x = c
    · subst hx; simp [afterFirst, specTailAfter, List.dropWhile]
    · have hb : (x != c) = true := by simp [hx]
      simpa [afterFirst, specTailAfter, List.dropWhile, hb, hx] using ih

/-- C3 (amended): when the fixer rewrites an occurrence — the URL starts
with the prefix, the cleaned path is non-empty, the target is not a
directory and `<target>.html` is a regular file — the new URL is the
original URL with query/fragment and one trailing slash stripped, plus
`.html`, plus exactly one reattached suffix: the `?` tail whenever a `?`
appears anywhere in the URL (even if a `#` appears earlier), otherwise the
`#` tail if a `#` appears. -/
theorem c3_extension_fix (fs : FS) (root : Str) (q : Char) (url : Str)
    (h1 : startsWith pathPref url = true)
    (h2 : cleanPathOf url ≠ [])
    (h3 : fs.isdir (potentialOf root url) = false)
    (h4 : fs.isfile (potentialOf root url ++ htmlExt) = true) :
    fix_html_link fs root q url
      = hrefLit ++ q ::
          (specStripTrailSlash (specStripQF url) ++ htmlExt ++ specSuffix url)
        ++ [q] := by
  have hbase : urlBaseOf url = specStripTrailSlash (specStripQF url) := by
    unfold urlBaseOf specStripTrailSlash
    rw [takeWhile_qf]
  have hsuf : suffixOf url = specSuffix url := by
    unfold suffixOf specSuffix
    rw [tailAfter_eq, tailAfter_eq]
  have h2b : (cleanPathOf url).isEmpty = false := by
    cases hc : cleanPathOf url
    · exact absurd hc h2
    · rfl
  unfold fix_html_link
  rw [h1, hbase, hsuf]
  simp [h2b, h3, h4]

/-- A filesystem with one regular file `/r/blog/news.html`. -/
def fsBlog : FS := ⟨fun _ => false, fun p => p == "/r/blog/news.html".toList⟩

/-- C3 witness: `href="/download/blog/news?x=1"` with `/r/blog/news.html`
on disk becomes `href="/download/blog/news.html?x=1"`. -/
theorem c3_extension_fix_witness :
    fix_html_link fsBlog "/r".toList '"' "/download/blog/news?x=1".toList
      = "href=\"/download/blog/news.html?x=1\"".toList :=
  (c3_extension_fix fsBlog "/r".toList '"' "/download/blog/news?x=1".toList
    (by decide) (by decide) (by decide) (by decide)).trans (by decide)

/-- `pyReplaceF` on the empty list is the empty list, for any fuel. -/
theorem pyReplaceF_nil (f : Nat) (old new : Str) : pyReplaceF f old new [] = [] := by
  cases f <;> rfl

/-- The fuel does not matter once it covers the input length. -/
theorem pyReplaceF_congr (old new : Str) :
    ∀ f g s, s.length ≤ f → s.length ≤ g →
      pyReplaceF f old new s = pyReplaceF g old new s := by
  intro f
  induction f with
  | zero =>
    intro g s hf _
    have hs : s = [] := List.eq_nil_of_length_eq_zero (Nat.le_zero.mp hf)
    subst hs
    rw [pyReplaceF_nil, pyReplaceF_nil]
  | succ f ih =>
    intro g s hf hg
    cases s with
    | nil => rw [pyReplaceF_nil, pyReplaceF_nil]
    | cons c rest =>
      cases g with
      | zero => simp at hg
      | succ g =>
        simp only [pyReplaceF]
        by_cases hc : (!old.isEmpty && old.isPrefixOf (c :: rest)) = true
        · rw [if_pos hc, if_pos hc]
          have hne : old ≠ [] := by
            intro he
            subst he
            simp at hc
          have hlen : 1 ≤ old.length := List.length_pos.mpr hne
          have hlf : ((c :: rest).drop old.length).length ≤ f := by
            rw [List.length_drop]
            simp only [List.length_cons] at hf ⊢
            omega
          have hlg : ((c :: rest).drop old.length).length ≤ g := by
            rw [List.length_drop]
            simp only [List.length_cons] at hg ⊢
            omega
          rw [ih g _ hlf hlg]
        · rw [if_neg hc, if_neg hc]
          have hlf : rest.length ≤ f := by simp only [List.length_cons] at hf; omega
          have hlg : rest.length ≤ g := by simp only [List.length_cons] at hg; omega
          rw [ih g rest hlf hlg]

/-- Unfolding of `pyReplace` when no occurrence starts at the head. -/
theorem pyReplace_cons_neg (old new : Str) (c : Char) (rest : Str)
    (h : (!old.isEmpty && old.isPrefixOf (c :: rest)) = false) :
    pyReplace old new (c :: rest) = c :: pyReplace old new rest := by
  unfold pyReplace
  simp only [List.length_cons, pyReplaceF, h]
  rfl

/-- Unfolding of `pyReplace` when `old` is a nonempty prefix of the input:
the occurrence is replaced and scanning continues after it. -/
theorem pyReplace_pos (old new s : Str) (hne : old ≠ []) (hp : old <+: s) :
    pyReplace old new s = new ++ pyReplace old new (s.drop old.length) := by
  cases s with
  | nil =>
    have := List.prefix_nil.mp hp
    exact absurd this hne
  | cons c rest =>
    have hc : (!old.isEmpty && old.isPrefixOf (c :: rest)) = true := by
      have h1 : old.isEmpty = false := by
        cases ho : old
        · exact absurd ho hne
        · rfl
      rw [List.isPrefixOf_iff_prefix.mpr hp, h1]
      rfl
    unfold pyReplace
    simp only [List.length_cons, pyReplaceF, hc, if_pos]
    congr 1
    apply pyReplaceF_congr
    · have h1l : 1 ≤ old.length := List.length_pos.mpr hne
      rw [List.length_drop]
      simp only [List.length_cons]
      omega
    · exact Nat.le_refl _

/-- If `old` does not occur in `s` at all, the replacement is the
identity (exact substring matching: nothing else triggers it). -/
theorem pyReplace_no_occurrence (old new : Str) :
    ∀ s, ¬ old <:+: s → pyReplace old new s = s := by
  intro s
  induction s with
  | nil => intro _; rfl
  | cons c rest ih =>
    intro h
    have hpre : old.isPrefixOf (c :: rest) = false := by
      cases hb : old.isPrefixOf (c :: rest)
      · rfl
      · obtain ⟨t, ht⟩ := List.isPrefixOf_iff_prefix.mp hb
        exact absurd ⟨[], t, by simpa using ht⟩ h
    rw [pyReplace_cons_neg old new c rest (by rw [hpre]; simp)]
    rw [ih (fun hi => h (List.infix_cons hi))]

/-- Leftmost replacement law: if the first occurrence of `old` starts right
after `a` (no occurrence fits inside `a ++ old.dropLast`), the replacement
keeps `a`, substitutes that occurrence, and recurses on the remainder. -/
theorem pyReplace_leftmost (old new : Str) (hne : old ≠ []) :
    ∀ a b, ¬ old <:+: (a ++ old.dropLast) →
      pyReplace old new (a ++ old ++ b) = a ++ new ++ pyReplace old new b := by
  intro a
  induction a with
  | nil =>
    intro b _
    show pyReplace old new ([] ++ old ++ b) = [] ++ new ++ pyReplace old new b
    simp only [List.nil_append]
    rw [pyReplace_pos old new (old ++ b) hne (List.prefix_append _ _), List.drop_left]
  | cons x a' ih =>
    intro b h
    have hsplit : (x :: a') ++ old ++ b
        = ((x :: a') ++ old.dropLast) ++ ([old.getLast hne] ++ b) := by
      conv_lhs => rw [← List.dropLast_append_getLast hne]
      simp [List.append_assoc]
    have hLpre : ((x :: a') ++ old.dropLast) <+: ((x :: a') ++ old ++ b) := by
      rw [hsplit]
      exact List.prefix_append _ _
    have hpre : old.isPrefixOf ((x :: a') ++ old ++ b) = false := by
      cases hb : old.isPrefixOf ((x :: a') ++ old ++ b)
      · rfl
      · have hop : old <+: ((x :: a') ++ old ++ b) := List.isPrefixOf_iff_prefix.mp hb
        have hlen : old.length ≤ ((x :: a') ++ old.dropLast).length := by
          rw [List.length_append, List.length_dropLast]
          have : 1 ≤ old.length := List.length_pos.mpr hne
          simp only [List.length_cons]
          omega
        have : old <+: ((x :: a') ++ old.dropLast) :=
          List.prefix_of_prefix_length_le hop hLpre hlen
        obtain ⟨t, ht⟩ := this
        exact absurd ⟨[], t, by simpa using ht⟩ h
    have hstep : pyReplace old new (x :: (a' ++ old ++ b))
        = x :: pyReplace old new (a' ++ old ++ b) := by
      apply pyReplace_cons_neg
      have : (x :: (a' ++ old ++ b)) = ((x :: a') ++ old ++ b) := by simp
      rw [this, hpre]
      simp
    have hrec : pyReplace old new (a' ++ old ++ b) = a' ++ new ++ pyReplace old new b := by
      apply ih
      intro hi
      exact h (by simpa using List.infix_cons hi)
    calc pyReplace old new ((x :: a') ++ old ++ b)
        = pyReplace old new (x :: (a' ++ old ++ b)) := by simp
      _ = x :: pyReplace old new (a' ++ old ++ b) := hstep
      _ = x :: (a' ++ new ++ pyReplace old new b) := by rw [hrec]
      _ = (x :: a') ++ new ++ pyReplace old new b := by simp

/-- C8: the domain substitution stage is a pure literal replacement: it is
the identity on the empty string; it changes nothing when the old domain
does not occur as a substring (exact matching, no regex semantics); and
every leftmost occurrence is replaced, with scanning continuing after the
replacement (non-overlapping).  It is a total function. -/
theorem c8_domain_substitutor :
    pyReplace OLD_DOMAIN NEW_DOMAIN [] = []
    ∧ (∀ s, ¬ OLD_DOMAIN <:+: s → pyReplace OLD_DOMAIN NEW_DOMAIN s = s)
    ∧ (∀ a b, ¬ OLD_DOMAIN <:+: (a ++ OLD_DOMAIN.dropLast) →
        pyReplace OLD_DOMAIN NEW_DOMAIN (a ++ OLD_DOMAIN ++ b)
          = a ++ NEW_DOMAIN ++ pyReplace OLD_DOMAIN NEW_DOMAIN b) :=
  ⟨rfl,
   pyReplace_no_occurrence OLD_DOMAIN NEW_DOMAIN,
   pyReplace_leftmost OLD_DOMAIN NEW_DOMAIN (by decide)⟩

/-- C8 witness: a domain-free text is untouched, and a text consisting of a
clean head plus one occurrence is rewritten to head plus the new domain. -/
theorem c8_domain_substitutor_witness :
    pyReplace OLD_DOMAIN NEW_DOMAIN "no occurrence here".toList
      = "no occurrence here".toList
    ∧ pyReplace OLD_DOMAIN NEW_DOMAIN ("see ".toList ++ OLD_DOMAIN ++ [])
      = "see ".toList ++ NEW_DOMAIN ++ pyReplace OLD_DOMAIN NEW_DOMAIN [] :=
  ⟨c8_domain_substitutor.2.1 "no occurrence here".toList (by decide),
   c8_domain_substitutor.2.2 "see ".toList [] (by decide)⟩

/-- A successful literal match splits the input at the literal's length. -/
theorem matchLitCI_parts (lit s a r : Str) (h : matchLitCI lit s = some (a, r)) :
    a ++ r = s := by
  unfold matchLitCI at h
  by_cases hc : ciPref lit s = true
  · rw [if_pos hc] at h
    simp only [Option.some.injEq, Prod.mk.injEq] at h
    obtain ⟨h1, h2⟩ := h
    rw [← h1, ← h2]
    exact List.take_append_drop _ _
  · rw [if_neg hc] at h
    exact Option.noConfusion h

/-- A successful alternation match splits the input. -/
theorem matchFirst_parts (lits : List Str) (s a r : Str)
    (h : matchFirst lits s = some (a, r)) : a ++ r = s := by
  induction lits with
  | nil => exact Option.noConfusion h
  | cons lit rest ih =>
    unfold matchFirst at h
    split at h
    · rename_i p hp
      injection h with h1
      rw [h1] at hp
      exact matchLitCI_parts lit s a r hp
    · exact ih h

/-- A successful lazy body scan splits the input at the closing quote. -/
theorem scanBody_parts (q : Char) :
    ∀ s b r, scanBody q s = some (b, r) → s = b ++ q :: r := by
  intro s
  induction s with
  | nil => intro b r h; exact Option.noConfusion h
  | cons c rest ih =>
    intro b r h
    unfold scanBody at h
    by_cases hq : (c == q) = true
    · rw [if_pos hq] at h
      simp only [Option.some.injEq, Prod.mk.injEq] at h
      obtain ⟨h1, h2⟩ := h
      rw [← h1, ← h2, List.nil_append]
      rw [eq_of_beq hq]
    · rw [if_neg hq] at h
      by_cases hn : (c == '\n') = true
      · rw [if_pos hn] at h
        exact Option.noConfusion h
      · rw [if_neg hn] at h
        split at h
        · rename_i b2 r2 hp
          simp only [Option.some.injEq, Prod.mk.injEq] at h
          obtain ⟨h1, h2⟩ := h
          rw [← h1, ← h2]
          have := ih b2 r2 hp
          simp [this]
        · exact Option.noConfusion h

/-- A successful HTML pattern match decomposes the input as
`attr ++ ws ++ quote ++ path ++ quote ++ rest`: the matched whitespace sits
between the attribute name and the opening quote. -/
theorem tryMatchHtml_parts (s : Str) (m : HtmlMatch)
    (h : tryMatchHtml s = some m) :
    s = m.attr ++ m.ws ++ m.q :: m.path ++ m.q :: m.rest := by
  unfold tryMatchHtml at h
  split at h
  · exact Option.noConfusion h
  · rename_i attr r1 hm
    split at h
    · rename_i q rest2 hd
      split at h
      · rename_i hq
        split at h
        · rename_i c2 rest3
          split at h
          · rename_i hslash
            split at h
            · rename_i b r4 hsb
              cases h
              have h1 : attr ++ r1 = s := matchFirst_parts attrLits s attr r1 hm
              have h2 : r1 = r1.takeWhile isSpaceCh ++ (q :: c2 :: rest3) := by
                conv_lhs => rw [← List.takeWhile_append_dropWhile isSpaceCh r1]
                rw [hd]
              have h3 : rest3 = b ++ q :: r4 := scanBody_parts q rest3 b r4 hsb
              subst h3
              rw [← h1]
              conv_lhs => rw [h2]
              simp
            · exact Option.noConfusion h
          · exact Option.noConfusion h
        · exact Option.noConfusion h
      · exact Option.noConfusion h
    · exact Option.noConfusion h

/-- C9: the extension fixer's pattern is case-sensitive on the literal
lowercase `href=`: every occurrence it matches starts with exactly that
text, so `HREF="..."` is never extension-fixed (even when the target file
exists), while the Path Prefixer does match `HREF` case-insensitively. -/
theorem c9_fixer_case_sensitive :
    (∀ s, (tryMatchHref s).isSome = true → startsWith hrefLit s = true)
    ∧ fixSub fsAbout "/r".toList "HREF=\"/download/about\"".toList
      = "HREF=\"/download/about\"".toList
    ∧ htmlSub "HREF=\"/a\"".toList = "HREF=\"/download/a\"".toList := by
  refine ⟨?_, by decide, by decide⟩
  intro s h
  cases hs : startsWith hrefLit s
  · unfold tryMatchHref at h
    rw [hs] at h
    simp at h
  · rfl

/-- C9 witness: a lowercase occurrence satisfies the matcher, and indeed
starts with the literal `href=`. -/
theorem c9_fixer_case_sensitive_witness :
    startsWith hrefLit "href=\"/x\"".toList = true :=
  c9_fixer_case_sensitive.1 "href=\"/x\"".toList (by decide)

/-- C10: whitespace between `=` and the quote is matched (it appears in the
decomposition of the matched text) but belongs to no group used to
reassemble the replacement, so a rewritten occurrence is the attribute name
immediately followed by the quote; concretely `href= "/a"` is rewritten to
`href="/download/a"` with the space deleted. -/
theorem c10_whitespace_deleted :
    (∀ s m, tryMatchHtml s = some m →
      s = m.attr ++ m.ws ++ m.q :: m.path ++ m.q :: m.rest
      ∧ (startsWith "//".toList m.path = false →
         startsWith pathPref m.path = false →
         htmlEmit m = m.attr ++ m.q :: (cleanPref ++ m.path) ++ [m.q]))
    ∧ htmlSub "href= \"/a\"".toList = "href=\"/download/a\"".toList := by
  constructor
  · intro s m h
    refine ⟨tryMatchHtml_parts s m h, ?_⟩
    intro h1 h2
    have h3 : startsWith (cleanPref ++ ['/']) m.path = false := by
      cases hb : startsWith (cleanPref ++ ['/']) m.path
      · rfl
      · rw [startsWith_of_slashed m.path hb] at h2; exact h2
    unfold htmlEmit replace_callback
    rw [h1, h2, h3]
    rfl
  · decide

/-- C10 witness: the occurrence `href= "/a"` decomposes with the space as
matched whitespace, and its replacement drops that space. -/
theorem c10_whitespace_deleted_witness :
    "href= \"/a\"".toList
      = "href=".toList ++ [' '] ++ '"' :: "/a".toList ++ '"' :: ([] : Str)
    ∧ htmlEmit ⟨"href=".toList, [' '], '"', "/a".toList, []⟩
      = "href=".toList ++ '"' :: (cleanPref ++ "/a".toList) ++ ['"'] := by
  have h := c10_whitespace_deleted.1 "href= \"/a\"".toList
    ⟨"href=".toList, [' '], '"', "/a".toList, []⟩ (by decide)
  exact ⟨h.1, h.2 (by decide) (by decide)⟩
